import Mathlib

/-!
Verification of the `try-iterator` library: fallible variants of the four
standard sequence-scanning operations (`try_all`, `try_any`, `try_position`,
`try_rposition`) from `src/try_iterator.rs`.

A sequence is embedded as a `List α`; a fallible predicate as
`α → Except ε Bool` (Rust `FnMut(Item) -> Result<bool, E>`, where the
predicates appearing here are pure, which suffices for the claims).
Rust's `Result<T, E>` is `Except ε τ` (`Ok` is `.ok`, `Err` is `.error`).

Each operation has a second, instrumented embedding (`..._run`) of the very
same loop that additionally records, in order, the elements the predicate
is invoked on; the instrumented loop is proved to agree with the plain one.
-/

universe u v

/-- Rust `TryIterator::try_all`: the loop
`for item in self { if !predicate(item)? { return Ok(false) } }; Ok(true)`. -/
def try_all {α : Type u} {ε : Type v} (p : α → Except ε Bool) : List α → Except ε Bool
  | [] => .ok true
  | x :: xs =>
    match p x with
    | .error e => .error e
    | .ok b => if !b then .ok false else try_all p xs

/-- Rust `TryIterator::try_any`: the loop
`for item in self { if predicate(item)? { return Ok(true) } }; Ok(false)`. -/
def try_any {α : Type u} {ε : Type v} (p : α → Except ε Bool) : List α → Except ε Bool
  | [] => .ok false
  | x :: xs =>
    match p x with
    | .error e => .error e
    | .ok b => if b then .ok true else try_any p xs

/-- Rust's `Iterator::enumerate` with an explicit running counter
(the counter starts at `n`; `enumerate` itself starts it at 0). -/
def enumerateFrom {α : Type u} (n : Nat) : List α → List (Nat × α)
  | [] => []
  | x :: xs => (n, x) :: enumerateFrom (n + 1) xs

/-- Rust's `self.enumerate()`: pair each element with its zero-based index. -/
def enumerate {α : Type u} (xs : List α) : List (Nat × α) :=
  enumerateFrom 0 xs

/-- The shared loop body of `try_position` / `try_rposition`:
`for (idx, item) in <pairs> { if predicate(item)? { return Ok(Some(idx)) } }; Ok(None)`. -/
def position_loop {α : Type u} {ε : Type v} (p : α → Except ε Bool) :
    List (Nat × α) → Except ε (Option Nat)
  | [] => .ok none
  | (idx, x) :: rest =>
    match p x with
    | .error e => .error e
    | .ok b => if b then .ok (some idx) else position_loop p rest

/-- Rust `TryIterator::try_position`: the loop over `self.enumerate()`. -/
def try_position {α : Type u} {ε : Type v} (p : α → Except ε Bool)
    (xs : List α) : Except ε (Option Nat) :=
  position_loop p (enumerate xs)

/-- Rust `TryIterator::try_rposition`: the loop over `self.enumerate().rev()`.
For a double-ended, exact-size iterator, reversing the enumeration yields the
forward-index/element pairs scanned from the last to the first. -/
def try_rposition {α : Type u} {ε : Type v} (p : α → Except ε Bool)
    (xs : List α) : Except ε (Option Nat) :=
  position_loop p (enumerate xs).reverse

/-- Instrumented `try_all`: same loop, also returning the list of elements the
predicate was invoked on, in invocation order. -/
def try_all_run {α : Type u} {ε : Type v} (p : α → Except ε Bool) :
    List α → List α × Except ε Bool
  | [] => ([], .ok true)
  | x :: xs =>
    match p x with
    | .error e => ([x], .error e)
    | .ok b =>
      if !b then ([x], .ok false)
      else
        let r := try_all_run p xs
        (x :: r.1, r.2)

/-- Instrumented `try_any`: same loop, also returning the list of elements the
predicate was invoked on, in invocation order. -/
def try_any_run {α : Type u} {ε : Type v} (p : α → Except ε Bool) :
    List α → List α × Except ε Bool
  | [] => ([], .ok false)
  | x :: xs =>
    match p x with
    | .error e => ([x], .error e)
    | .ok b =>
      if b then ([x], .ok true)
      else
        let r := try_any_run p xs
        (x :: r.1, r.2)

/-- Instrumented `position_loop`: same loop, also returning the list of
elements the predicate was invoked on, in invocation order. -/
def position_run {α : Type u} {ε : Type v} (p : α → Except ε Bool) :
    List (Nat × α) → List α × Except ε (Option Nat)
  | [] => ([], .ok none)
  | (idx, x) :: rest =>
    match p x with
    | .error e => ([x], .error e)
    | .ok b =>
      if b then ([x], .ok (some idx))
      else
        let r := position_run p rest
        (x :: r.1, r.2)

/-- Instrumented `try_position`. -/
def try_position_run {α : Type u} {ε : Type v} (p : α → Except ε Bool)
    (xs : List α) : List α × Except ε (Option Nat) :=
  position_run p (enumerate xs)

/-- Instrumented `try_rposition`. -/
def try_rposition_run {α : Type u} {ε : Type v} (p : α → Except ε Bool)
    (xs : List α) : List α × Except ε (Option Nat) :=
  position_run p (enumerate xs).reverse

/-- The standard infallible last-match index ("find the index of the last
matching element", zero-based from the start of the sequence), used as the
reference point of the refinement claim. -/
def lastMatchIdx {α : Type u} (q : α → Bool) : List α → Option Nat
  | [] => none
  | x :: xs =>
    match lastMatchIdx q xs with
    | some i => some (i + 1)
    | none => if q x then some 0 else none

/-- The predicate of the worked examples in the source documentation:
propagate an element's own error, otherwise test equality with `"foo"`. -/
def eqFoo (item : Except Nat String) : Except Nat Bool :=
  match item with
  | .error e => .error e
  | .ok s => .ok (s == "foo")

/-- The three-element sequence `[Ok("foo"), Err(9999), Ok("bar")]` of the
`try_rposition` example in the source documentation. -/
def fooErrBar : List (Except Nat String) :=
  [.ok "foo", .error 9999, .ok "bar"]

section Lemmas

variable {α : Type u} {ε : Type v}

/-- Boolean test: the outcome is a success with `true`. -/
def isOkTrue (r : Except ε Bool) : Bool :=
  match r with
  | .ok true => true
  | _ => false

/-- Boolean test: the outcome is a success with `false`. -/
def isOkFalse (r : Except ε Bool) : Bool :=
  match r with
  | .ok false => true
  | _ => false

theorem isOkTrue_iff (r : Except ε Bool) : isOkTrue r = true ↔ r = .ok true := by
  cases r with
  | error e => simp [isOkTrue]
  | ok b => cases b <;> simp [isOkTrue]

theorem isOkFalse_iff (r : Except ε Bool) : isOkFalse r = true ↔ r = .ok false := by
  cases r with
  | error e => simp [isOkFalse]
  | ok b => cases b <;> simp [isOkFalse]

theorem try_all_run_snd (p : α → Except ε Bool) (xs : List α) :
    (try_all_run p xs).2 = try_all p xs := by
  induction xs with
  | nil => rfl
  | cons x xs ih =>
    cases hp : p x with
    | error e => simp [try_all_run, try_all, hp]
    | ok b => cases b <;> simp [try_all_run, try_all, hp, ih]

theorem try_any_run_snd (p : α → Except ε Bool) (xs : List α) :
    (try_any_run p xs).2 = try_any p xs := by
  induction xs with
  | nil => rfl
  | cons x xs ih =>
    cases hp : p x with
    | error e => simp [try_any_run, try_any, hp]
    | ok b => cases b <;> simp [try_any_run, try_any, hp, ih]

theorem position_run_snd (p : α → Except ε Bool) (l : List (Nat × α)) :
    (position_run p l).2 = position_loop p l := by
  induction l with
  | nil => rfl
  | cons q rest ih =>
    obtain ⟨idx, x⟩ := q
    cases hp : p x with
    | error e => simp [position_run, position_loop, hp]
    | ok b => cases b <;> simp [position_run, position_loop, hp, ih]

theorem try_all_run_fst (p : α → Except ε Bool) (xs : List α) :
    (try_all_run p xs).1 =
      xs.takeWhile (fun x => isOkTrue (p x)) ++
        (xs.dropWhile (fun x => isOkTrue (p x))).take 1 := by
  induction xs with
  | nil => rfl
  | cons x xs ih =>
    cases hp : p x with
    | error e =>
      simp [try_all_run, hp, List.takeWhile_cons, List.dropWhile_cons, isOkTrue]
    | ok b =>
      cases b with
      | false =>
        simp [try_all_run, hp, List.takeWhile_cons, List.dropWhile_cons, isOkTrue]
      | true =>
        simp [try_all_run, hp, List.takeWhile_cons, List.dropWhile_cons, isOkTrue, ih]

theorem try_any_run_fst (p : α → Except ε Bool) (xs : List α) :
    (try_any_run p xs).1 =
      xs.takeWhile (fun x => isOkFalse (p x)) ++
        (xs.dropWhile (fun x => isOkFalse (p x))).take 1 := by
  induction xs with
  | nil => rfl
  | cons x xs ih =>
    cases hp : p x with
    | error e =>
      simp [try_any_run, hp, List.takeWhile_cons, List.dropWhile_cons, isOkFalse]
    | ok b =>
      cases b with
      | false =>
        simp [try_any_run, hp, List.takeWhile_cons, List.dropWhile_cons, isOkFalse, ih]
      | true =>
        simp [try_any_run, hp, List.takeWhile_cons, List.dropWhile_cons, isOkFalse]

theorem position_run_fst (p : α → Except ε Bool) (l : List (Nat × α)) :
    (position_run p l).1 =
      (l.takeWhile (fun q => isOkFalse (p q.2))).map Prod.snd ++
        ((l.dropWhile (fun q => isOkFalse (p q.2))).take 1).map Prod.snd := by
  induction l with
  | nil => rfl
  | cons q rest ih =>
    obtain ⟨idx, x⟩ := q
    cases hp : p x with
    | error e =>
      simp [position_run, hp, List.takeWhile_cons, List.dropWhile_cons, isOkFalse]
    | ok b =>
      cases b with
      | false =>
        simp [position_run, hp, List.takeWhile_cons, List.dropWhile_cons, isOkFalse, ih]
      | true =>
        simp [position_run, hp, List.takeWhile_cons, List.dropWhile_cons, isOkFalse]

end Lemmas

section Characterizations

variable {α : Type u} {ε : Type v}

theorem split_cons_iff {P Q : α → Prop} (x : α) (xs : List α) :
    (∃ ys z zs, x :: xs = ys ++ z :: zs ∧ (∀ y ∈ ys, P y) ∧ Q z) ↔
      Q x ∨ (P x ∧ ∃ ys z zs, xs = ys ++ z :: zs ∧ (∀ y ∈ ys, P y) ∧ Q z) := by
  constructor
  · rintro ⟨ys, z, zs, hxs, hys, hz⟩
    cases ys with
    | nil =>
      rw [List.nil_append] at hxs
      injection hxs with h1 h2
      subst h1
      exact Or.inl hz
    | cons y ys' =>
      rw [List.cons_append] at hxs
      injection hxs with h1 h2
      subst h1
      exact Or.inr ⟨hys x (List.mem_cons_self x ys'), ys', z, zs, h2,
        fun w hw => hys w (List.mem_cons_of_mem x hw), hz⟩
  · rintro (hq | ⟨hpx, ys, z, zs, hxs, hys, hz⟩)
    · exact ⟨[], x, xs, rfl, by simp, hq⟩
    · exact ⟨x :: ys, z, zs, by simp [hxs], List.forall_mem_cons.mpr ⟨hpx, hys⟩, hz⟩

theorem try_all_eq_ok_true (p : α → Except ε Bool) (xs : List α) :
    try_all p xs = .ok true ↔ ∀ x ∈ xs, p x = .ok true := by
  induction xs with
  | nil => simp [try_all]
  | cons x xs ih =>
    cases hp : p x with
    | error e => simp [try_all, hp]
    | ok b => cases b <;> simp [try_all, hp, ih]

theorem try_all_eq_error (p : α → Except ε Bool) (xs : List α) (e : ε) :
    try_all p xs = .error e ↔
      ∃ ys z zs, xs = ys ++ z :: zs ∧ (∀ y ∈ ys, p y = .ok true) ∧ p z = .error e := by
  induction xs with
  | nil => simp [try_all]
  | cons x xs ih =>
    rw [split_cons_iff, ← ih]
    cases hp : p x with
    | error e' => simp [try_all, hp]
    | ok b => cases b <;> simp [try_all, hp]

theorem try_all_eq_ok_false (p : α → Except ε Bool) (xs : List α) :
    try_all p xs = .ok false ↔
      ∃ ys z zs, xs = ys ++ z :: zs ∧ (∀ y ∈ ys, p y = .ok true) ∧ p z = .ok false := by
  induction xs with
  | nil => simp [try_all]
  | cons x xs ih =>
    rw [split_cons_iff, ← ih]
    cases hp : p x with
    | error e' => simp [try_all, hp]
    | ok b => cases b <;> simp [try_all, hp]

theorem try_any_eq_ok_false (p : α → Except ε Bool) (xs : List α) :
    try_any p xs = .ok false ↔ ∀ x ∈ xs, p x = .ok false := by
  induction xs with
  | nil => simp [try_any]
  | cons x xs ih =>
    cases hp : p x with
    | error e => simp [try_any, hp]
    | ok b => cases b <;> simp [try_any, hp, ih]

theorem try_any_eq_error (p : α → Except ε Bool) (xs : List α) (e : ε) :
    try_any p xs = .error e ↔
      ∃ ys z zs, xs = ys ++ z :: zs ∧ (∀ y ∈ ys, p y = .ok false) ∧ p z = .error e := by
  induction xs with
  | nil => simp [try_any]
  | cons x xs ih =>
    rw [split_cons_iff, ← ih]
    cases hp : p x with
    | error e' => simp [try_any, hp]
    | ok b => cases b <;> simp [try_any, hp]

theorem try_any_eq_ok_true (p : α → Except ε Bool) (xs : List α) :
    try_any p xs = .ok true ↔
      ∃ ys z zs, xs = ys ++ z :: zs ∧ (∀ y ∈ ys, p y = .ok false) ∧ p z = .ok true := by
  induction xs with
  | nil => simp [try_any]
  | cons x xs ih =>
    rw [split_cons_iff, ← ih]
    cases hp : p x with
    | error e' => simp [try_any, hp]
    | ok b => cases b <;> simp [try_any, hp]

end Characterizations

section PositionCharacterizations

variable {α : Type u} {ε : Type v}

theorem position_loop_eq_none (p : α → Except ε Bool) (l : List (Nat × α)) :
    position_loop p l = .ok none ↔ ∀ r ∈ l, p r.2 = .ok false := by
  induction l with
  | nil => simp [position_loop]
  | cons q rest ih =>
    obtain ⟨idx, x⟩ := q
    cases hp : p x with
    | error e => simp [position_loop, hp]
    | ok b => cases b <;> simp [position_loop, hp, ih]

theorem position_loop_eq_some (p : α → Except ε Bool) (l : List (Nat × α)) (i : Nat) :
    position_loop p l = .ok (some i) ↔
      ∃ l1 q l2, l = l1 ++ q :: l2 ∧ (∀ r ∈ l1, p r.2 = .ok false) ∧
        (q.1 = i ∧ p q.2 = .ok true) := by
  induction l with
  | nil => simp [position_loop]
  | cons q0 rest ih =>
    rw [split_cons_iff, ← ih]
    obtain ⟨idx, x⟩ := q0
    cases hp : p x with
    | error e => simp [position_loop, hp]
    | ok b => cases b <;> simp [position_loop, hp]

theorem position_loop_eq_error (p : α → Except ε Bool) (l : List (Nat × α)) (e : ε) :
    position_loop p l = .error e ↔
      ∃ l1 q l2, l = l1 ++ q :: l2 ∧ (∀ r ∈ l1, p r.2 = .ok false) ∧
        p q.2 = .error e := by
  induction l with
  | nil => simp [position_loop]
  | cons q0 rest ih =>
    rw [split_cons_iff, ← ih]
    obtain ⟨idx, x⟩ := q0
    cases hp : p x with
    | error e' => simp [position_loop, hp]
    | ok b => cases b <;> simp [position_loop, hp]

theorem enumerateFrom_append (n : Nat) (ys zs : List α) :
    enumerateFrom n (ys ++ zs) =
      enumerateFrom n ys ++ enumerateFrom (n + ys.length) zs := by
  induction ys generalizing n with
  | nil => simp [enumerateFrom]
  | cons y ys ih =>
    simp only [List.cons_append, enumerateFrom, List.length_cons]
    rw [show n + (ys.length + 1) = n + 1 + ys.length from by omega]
    simp [ih]

theorem enumerateFrom_eq_append_inv (n : Nat) (xs : List α) (l1 l2 : List (Nat × α))
    (q : Nat × α) (h : enumerateFrom n xs = l1 ++ q :: l2) :
    ∃ ys zs, xs = ys ++ q.2 :: zs ∧ l1 = enumerateFrom n ys ∧
      q.1 = n + ys.length ∧ l2 = enumerateFrom (q.1 + 1) zs := by
  induction xs generalizing n l1 with
  | nil => simp [enumerateFrom] at h
  | cons x xs ih =>
    cases l1 with
    | nil =>
      simp only [enumerateFrom, List.nil_append] at h
      injection h with h1 h2
      subst h1
      exact ⟨[], xs, rfl, rfl, by simp, h2.symm⟩
    | cons q1 l1' =>
      simp only [enumerateFrom, List.cons_append] at h
      injection h with h1 h2
      subst h1
      obtain ⟨ys, zs, hxs, hl1, hq1, hl2⟩ := ih (n + 1) l1' h2
      refine ⟨x :: ys, zs, by simp [hxs], by simp [enumerateFrom, hl1], ?_, hl2⟩
      simp only [List.length_cons]
      omega

theorem forall_enumerateFrom_iff (P : α → Prop) (n : Nat) (xs : List α) :
    (∀ q ∈ enumerateFrom n xs, P q.2) ↔ ∀ x ∈ xs, P x := by
  induction xs generalizing n with
  | nil => simp [enumerateFrom]
  | cons x xs ih =>
    simp only [enumerateFrom, List.forall_mem_cons]
    rw [ih (n + 1)]

end PositionCharacterizations

section TryPositionCharacterizations

variable {α : Type u} {ε : Type v}

theorem try_position_eq_none (p : α → Except ε Bool) (xs : List α) :
    try_position p xs = .ok none ↔ ∀ x ∈ xs, p x = .ok false := by
  rw [try_position, position_loop_eq_none,
    show enumerate xs = enumerateFrom 0 xs from rfl]
  exact forall_enumerateFrom_iff (fun a => p a = .ok false) 0 xs

theorem try_position_eq_some (p : α → Except ε Bool) (xs : List α) (i : Nat) :
    try_position p xs = .ok (some i) ↔
      ∃ ys z zs, xs = ys ++ z :: zs ∧ ys.length = i ∧
        (∀ y ∈ ys, p y = .ok false) ∧ p z = .ok true := by
  rw [try_position, position_loop_eq_some]
  constructor
  · rintro ⟨l1, q, l2, hl, hl1, hq1, hq2⟩
    obtain ⟨ys, zs, hxs, hly, hidx, hlz⟩ := enumerateFrom_eq_append_inv 0 xs l1 l2 q hl
    refine ⟨ys, q.2, zs, hxs, by omega, ?_, hq2⟩
    subst hly
    exact (forall_enumerateFrom_iff (fun a => p a = .ok false) 0 ys).mp hl1
  · rintro ⟨ys, z, zs, hxs, hlen, hys, hz⟩
    refine ⟨enumerateFrom 0 ys, (i, z), enumerateFrom (i + 1) zs, ?_, ?_, rfl, hz⟩
    · rw [show enumerate xs = enumerateFrom 0 xs from rfl, hxs, enumerateFrom_append]
      simp [enumerateFrom, hlen]
    · exact (forall_enumerateFrom_iff (fun a => p a = .ok false) 0 ys).mpr hys

theorem try_position_eq_error (p : α → Except ε Bool) (xs : List α) (e : ε) :
    try_position p xs = .error e ↔
      ∃ ys z zs, xs = ys ++ z :: zs ∧ (∀ y ∈ ys, p y = .ok false) ∧ p z = .error e := by
  rw [try_position, position_loop_eq_error]
  constructor
  · rintro ⟨l1, q, l2, hl, hl1, hq2⟩
    obtain ⟨ys, zs, hxs, hly, hidx, hlz⟩ := enumerateFrom_eq_append_inv 0 xs l1 l2 q hl
    subst hly
    exact ⟨ys, q.2, zs, hxs,
      (forall_enumerateFrom_iff (fun a => p a = .ok false) 0 ys).mp hl1, hq2⟩
  · rintro ⟨ys, z, zs, hxs, hys, hz⟩
    refine ⟨enumerateFrom 0 ys, (ys.length, z), enumerateFrom (ys.length + 1) zs, ?_, ?_, hz⟩
    · rw [show enumerate xs = enumerateFrom 0 xs from rfl, hxs, enumerateFrom_append]
      simp [enumerateFrom]
    · exact (forall_enumerateFrom_iff (fun a => p a = .ok false) 0 ys).mpr hys

theorem reverse_eq_append_iff (l l1 : List α) (x : α) (l2 : List α) :
    l.reverse = l1 ++ x :: l2 ↔ l = l2.reverse ++ x :: l1.reverse := by
  constructor
  · intro h
    rw [← List.reverse_reverse l, h]
    simp
  · intro h
    rw [h]
    simp

theorem try_rposition_eq_none (p : α → Except ε Bool) (xs : List α) :
    try_rposition p xs = .ok none ↔ ∀ x ∈ xs, p x = .ok false := by
  rw [try_rposition, position_loop_eq_none]
  simp only [List.mem_reverse]
  rw [show enumerate xs = enumerateFrom 0 xs from rfl]
  exact forall_enumerateFrom_iff (fun a => p a = .ok false) 0 xs

theorem try_rposition_eq_some (p : α → Except ε Bool) (xs : List α) (i : Nat) :
    try_rposition p xs = .ok (some i) ↔
      ∃ ys z zs, xs = ys ++ z :: zs ∧ ys.length = i ∧ p z = .ok true ∧
        ∀ w ∈ zs, p w = .ok false := by
  rw [try_rposition, position_loop_eq_some]
  constructor
  · rintro ⟨l1, q, l2, hl, hl1, hq1, hq2⟩
    rw [reverse_eq_append_iff] at hl
    obtain ⟨ys, zs, hxs, hly, hidx, hlz⟩ :=
      enumerateFrom_eq_append_inv 0 xs l2.reverse l1.reverse q hl
    refine ⟨ys, q.2, zs, hxs, by omega, hq2, ?_⟩
    have h2 : ∀ r ∈ enumerateFrom (q.1 + 1) zs, p r.2 = .ok false := by
      intro r hr
      rw [← hlz] at hr
      exact hl1 r (List.mem_reverse.mp hr)
    exact (forall_enumerateFrom_iff (fun a => p a = .ok false) (q.1 + 1) zs).mp h2
  · rintro ⟨ys, z, zs, hxs, hlen, hz, hzs⟩
    refine ⟨(enumerateFrom (i + 1) zs).reverse, (i, z), (enumerateFrom 0 ys).reverse,
      ?_, ?_, rfl, hz⟩
    · rw [reverse_eq_append_iff]
      simp only [List.reverse_reverse]
      rw [show enumerate xs = enumerateFrom 0 xs from rfl, hxs, enumerateFrom_append]
      simp [enumerateFrom, hlen]
    · intro r hr
      rw [List.mem_reverse] at hr
      exact (forall_enumerateFrom_iff (fun a => p a = .ok false) (i + 1) zs).mpr hzs r hr

theorem try_rposition_eq_error (p : α → Except ε Bool) (xs : List α) (e : ε) :
    try_rposition p xs = .error e ↔
      ∃ ys z zs, xs = ys ++ z :: zs ∧ p z = .error e ∧ ∀ w ∈ zs, p w = .ok false := by
  rw [try_rposition, position_loop_eq_error]
  constructor
  · rintro ⟨l1, q, l2, hl, hl1, hq2⟩
    rw [reverse_eq_append_iff] at hl
    obtain ⟨ys, zs, hxs, hly, hidx, hlz⟩ :=
      enumerateFrom_eq_append_inv 0 xs l2.reverse l1.reverse q hl
    refine ⟨ys, q.2, zs, hxs, hq2, ?_⟩
    have h2 : ∀ r ∈ enumerateFrom (q.1 + 1) zs, p r.2 = .ok false := by
      intro r hr
      rw [← hlz] at hr
      exact hl1 r (List.mem_reverse.mp hr)
    exact (forall_enumerateFrom_iff (fun a => p a = .ok false) (q.1 + 1) zs).mp h2
  · rintro ⟨ys, z, zs, hxs, hz, hzs⟩
    refine ⟨(enumerateFrom (ys.length + 1) zs).reverse, (ys.length, z),
      (enumerateFrom 0 ys).reverse, ?_, ?_, hz⟩
    · rw [reverse_eq_append_iff]
      simp only [List.reverse_reverse]
      rw [show enumerate xs = enumerateFrom 0 xs from rfl, hxs, enumerateFrom_append]
      simp [enumerateFrom]
    · intro r hr
      rw [List.mem_reverse] at hr
      exact (forall_enumerateFrom_iff (fun a => p a = .ok false) (ys.length + 1) zs).mpr
        hzs r hr

end TryPositionCharacterizations

section MoreHelpers

variable {α : Type u} {ε : Type v}

theorem takeWhile_split (f : α → Bool) (l1 : List α) (z : α) (l2 : List α)
    (h1 : ∀ a ∈ l1, f a = true) (h2 : f z = false) :
    (l1 ++ z :: l2).takeWhile f = l1 ∧ (l1 ++ z :: l2).dropWhile f = z :: l2 := by
  induction l1 with
  | nil => simp [List.takeWhile_cons, List.dropWhile_cons, h2]
  | cons a l1 ih =>
    have ha : f a = true := h1 a (List.mem_cons_self a l1)
    have ih2 := ih fun b hb => h1 b (List.mem_cons_of_mem a hb)
    simp [List.takeWhile_cons, List.dropWhile_cons, ha, ih2.1, ih2.2]

theorem map_snd_enumerateFrom (n : Nat) (xs : List α) :
    (enumerateFrom n xs).map Prod.snd = xs := by
  induction xs generalizing n with
  | nil => rfl
  | cons x xs ih => simp [enumerateFrom, ih]

theorem try_all_run_fst_of_all_true (p : α → Except ε Bool) (xs : List α)
    (h : ∀ x ∈ xs, p x = .ok true) : (try_all_run p xs).1 = xs := by
  have hf : ∀ x ∈ xs, isOkTrue (p x) = true := fun x hx => (isOkTrue_iff (p x)).mpr (h x hx)
  rw [try_all_run_fst, List.takeWhile_eq_self_iff.mpr hf, List.dropWhile_eq_nil_iff.mpr hf]
  simp

theorem try_any_run_fst_of_all_false (p : α → Except ε Bool) (xs : List α)
    (h : ∀ x ∈ xs, p x = .ok false) : (try_any_run p xs).1 = xs := by
  have hf : ∀ x ∈ xs, isOkFalse (p x) = true := fun x hx => (isOkFalse_iff (p x)).mpr (h x hx)
  rw [try_any_run_fst, List.takeWhile_eq_self_iff.mpr hf, List.dropWhile_eq_nil_iff.mpr hf]
  simp

theorem except_map_ok_eq (f : Bool → Bool) (b : Bool) :
    Except.map f (.ok b : Except ε Bool) = .ok (f b) := rfl

theorem except_map_error_eq (f : Bool → Bool) (e : ε) :
    Except.map f (.error e : Except ε Bool) = .error e := rfl

theorem try_any_map_not (p : α → Except ε Bool) (xs : List α) :
    try_any (fun x => Except.map (fun b => !b) (p x)) xs =
      Except.map (fun b => !b) (try_all p xs) := by
  induction xs with
  | nil => rfl
  | cons x xs ih =>
    cases hp : p x with
    | error e => simp [try_any, try_all, hp, except_map_error_eq]
    | ok b =>
      cases b <;> simp [try_any, try_all, hp, except_map_ok_eq, except_map_error_eq, ih]

theorem try_any_run_map_not_fst (p : α → Except ε Bool) (xs : List α) :
    (try_any_run (fun x => Except.map (fun b => !b) (p x)) xs).1 =
      (try_all_run p xs).1 := by
  induction xs with
  | nil => rfl
  | cons x xs ih =>
    cases hp : p x with
    | error e => simp [try_any_run, try_all_run, hp, except_map_error_eq]
    | ok b =>
      cases b <;>
        simp [try_any_run, try_all_run, hp, except_map_ok_eq, except_map_error_eq, ih]

theorem position_loop_append (p : α → Except ε Bool) (l1 l2 : List (Nat × α)) :
    position_loop p (l1 ++ l2) =
      match position_loop p l1 with
      | .ok none => position_loop p l2
      | r => r := by
  induction l1 with
  | nil => simp [position_loop]
  | cons q rest ih =>
    obtain ⟨idx, x⟩ := q
    cases hp : p x with
    | error e => simp [position_loop, hp]
    | ok b => cases b <;> simp [position_loop, hp, ih]

end MoreHelpers

/-- The standard infallible first-match index ("find the index of the first
matching element", zero-based), used as the reference point of the refinement
claim. -/
def firstMatchIdx {α : Type u} (q : α → Bool) : List α → Option Nat
  | [] => none
  | x :: xs => if q x then some 0 else (firstMatchIdx q xs).map (fun i => i + 1)

section PureRefinement

variable {α : Type u} {ε : Type v}

theorem try_all_pure (q : α → Bool) (xs : List α) :
    try_all (fun x => (.ok (q x) : Except ε Bool)) xs = .ok (xs.all q) := by
  induction xs with
  | nil => simp [try_all]
  | cons x xs ih => cases hq : q x <;> simp [try_all, hq, ih, List.all_cons]

theorem try_any_pure (q : α → Bool) (xs : List α) :
    try_any (fun x => (.ok (q x) : Except ε Bool)) xs = .ok (xs.any q) := by
  induction xs with
  | nil => simp [try_any]
  | cons x xs ih => cases hq : q x <;> simp [try_any, hq, ih, List.any_cons]

theorem position_loop_pure (q : α → Bool) (n : Nat) (xs : List α) :
    position_loop (fun x => (.ok (q x) : Except ε Bool)) (enumerateFrom n xs) =
      .ok ((firstMatchIdx q xs).map (fun i => n + i)) := by
  induction xs generalizing n with
  | nil => simp [position_loop, enumerateFrom, firstMatchIdx]
  | cons x xs ih =>
    cases hq : q x with
    | true => simp [position_loop, enumerateFrom, firstMatchIdx, hq]
    | false =>
      cases ho : firstMatchIdx q xs with
      | none => simp [position_loop, enumerateFrom, firstMatchIdx, hq, ho, ih (n + 1)]
      | some i =>
        simp [position_loop, enumerateFrom, firstMatchIdx, hq, ho, ih (n + 1)]
        try omega

theorem rposition_loop_pure (q : α → Bool) (n : Nat) (xs : List α) :
    position_loop (fun x => (.ok (q x) : Except ε Bool)) ((enumerateFrom n xs).reverse) =
      .ok ((lastMatchIdx q xs).map (fun i => n + i)) := by
  induction xs generalizing n with
  | nil => simp [position_loop, enumerateFrom, lastMatchIdx]
  | cons x xs ih =>
    rw [show enumerateFrom n (x :: xs) = (n, x) :: enumerateFrom (n + 1) xs from rfl,
      List.reverse_cons, position_loop_append, ih (n + 1)]
    cases ho : lastMatchIdx q xs with
    | none => cases hq : q x <;> simp [position_loop, lastMatchIdx, ho, hq]
    | some i =>
      simp [position_loop, lastMatchIdx, ho]
      try omega

theorem try_position_pure (q : α → Bool) (xs : List α) :
    try_position (fun x => (.ok (q x) : Except ε Bool)) xs = .ok (firstMatchIdx q xs) := by
  rw [try_position, show enumerate xs = enumerateFrom 0 xs from rfl, position_loop_pure]
  cases firstMatchIdx q xs <;> simp

theorem try_rposition_pure (q : α → Bool) (xs : List α) :
    try_rposition (fun x => (.ok (q x) : Except ε Bool)) xs = .ok (lastMatchIdx q xs) := by
  rw [try_rposition, show enumerate xs = enumerateFrom 0 xs from rfl, rposition_loop_pure]
  cases lastMatchIdx q xs <;> simp

end PureRefinement

section TraceSplits

variable {α : Type u} {ε : Type v}

theorem try_all_run_fst_split (p : α → Except ε Bool) (ys : List α) (z : α) (zs : List α)
    (h1 : ∀ y ∈ ys, p y = .ok true) (h2 : isOkTrue (p z) = false) :
    (try_all_run p (ys ++ z :: zs)).1 = ys ++ [z] := by
  have hf : ∀ y ∈ ys, isOkTrue (p y) = true := fun y hy => (isOkTrue_iff (p y)).mpr (h1 y hy)
  have hs := takeWhile_split (fun x => isOkTrue (p x)) ys z zs hf h2
  rw [try_all_run_fst, hs.1, hs.2]
  simp

theorem try_any_run_fst_split (p : α → Except ε Bool) (ys : List α) (z : α) (zs : List α)
    (h1 : ∀ y ∈ ys, p y = .ok false) (h2 : isOkFalse (p z) = false) :
    (try_any_run p (ys ++ z :: zs)).1 = ys ++ [z] := by
  have hf : ∀ y ∈ ys, isOkFalse (p y) = true := fun y hy => (isOkFalse_iff (p y)).mpr (h1 y hy)
  have hs := takeWhile_split (fun x => isOkFalse (p x)) ys z zs hf h2
  rw [try_any_run_fst, hs.1, hs.2]
  simp

theorem position_run_fst_split (p : α → Except ε Bool) (l1 : List (Nat × α))
    (q0 : Nat × α) (l2 : List (Nat × α))
    (h1 : ∀ r ∈ l1, p r.2 = .ok false) (h2 : isOkFalse (p q0.2) = false) :
    (position_run p (l1 ++ q0 :: l2)).1 = l1.map Prod.snd ++ [q0.2] := by
  have hf : ∀ r ∈ l1, isOkFalse (p r.2) = true := fun r hr =>
    (isOkFalse_iff (p r.2)).mpr (h1 r hr)
  have hs := takeWhile_split (fun q => isOkFalse (p q.2)) l1 q0 l2 hf h2
  rw [position_run_fst, hs.1, hs.2]
  simp

theorem enumerate_split (ys : List α) (z : α) (zs : List α) :
    enumerate (ys ++ z :: zs) =
      enumerateFrom 0 ys ++ (ys.length, z) :: enumerateFrom (ys.length + 1) zs := by
  rw [show enumerate (ys ++ z :: zs) = enumerateFrom 0 (ys ++ z :: zs) from rfl,
    enumerateFrom_append]
  simp [enumerateFrom]

end TraceSplits

/-- C1: `try_all` consumes elements in forward order and invokes the predicate
on each; it returns the predicate's failure at the first failing element (all
earlier predicate calls having succeeded with `true`), returns success with
`false` at the first element on which the predicate succeeds with `false`,
returns success with `true` when the sequence is exhausted with every
predicate call succeeding with `true` (in which case the predicate was invoked
on every element), and returns success with `true` on the empty sequence. -/
theorem try_all_claim {α : Type u} {ε : Type v} (p : α → Except ε Bool) (xs : List α) :
    (try_all p xs = .ok true ↔ ∀ x ∈ xs, p x = .ok true) ∧
    (∀ e : ε, try_all p xs = .error e ↔
      ∃ ys z zs, xs = ys ++ z :: zs ∧ (∀ y ∈ ys, p y = .ok true) ∧ p z = .error e) ∧
    (try_all p xs = .ok false ↔
      ∃ ys z zs, xs = ys ++ z :: zs ∧ (∀ y ∈ ys, p y = .ok true) ∧ p z = .ok false) ∧
    ((∀ x ∈ xs, p x = .ok true) → (try_all_run p xs).1 = xs) ∧
    try_all p ([] : List α) = .ok true :=
  ⟨try_all_eq_ok_true p xs, fun e => try_all_eq_error p xs e, try_all_eq_ok_false p xs,
    try_all_run_fst_of_all_true p xs, rfl⟩

/-- Witness for C1: on `[1, 2, 3]` with the always-`Ok(true)` predicate, the
exhaustion clause applies and the predicate is invoked on every element. -/
theorem try_all_claim_witness :
    (try_all_run (fun _ : Nat => (.ok true : Except Nat Bool)) [1, 2, 3]).1 = [1, 2, 3] :=
  (try_all_claim (fun _ : Nat => (.ok true : Except Nat Bool)) [1, 2, 3]).2.2.2.1
    (fun _ _ => rfl)

/-- C2: `try_any` returns success with `true` at the first element on which the
predicate succeeds with `true` (all earlier calls having succeeded with
`false`), returns the predicate's failure at the first failing element, returns
success with `false` after exhausting the sequence with no element having
matched (in which case the predicate was invoked on every element), and
returns success with `false` on the empty sequence. -/
theorem try_any_claim {α : Type u} {ε : Type v} (p : α → Except ε Bool) (xs : List α) :
    (try_any p xs = .ok true ↔
      ∃ ys z zs, xs = ys ++ z :: zs ∧ (∀ y ∈ ys, p y = .ok false) ∧ p z = .ok true) ∧
    (∀ e : ε, try_any p xs = .error e ↔
      ∃ ys z zs, xs = ys ++ z :: zs ∧ (∀ y ∈ ys, p y = .ok false) ∧ p z = .error e) ∧
    (try_any p xs = .ok false ↔ ∀ x ∈ xs, p x = .ok false) ∧
    ((∀ x ∈ xs, p x = .ok false) → (try_any_run p xs).1 = xs) ∧
    try_any p ([] : List α) = .ok false :=
  ⟨try_any_eq_ok_true p xs, fun e => try_any_eq_error p xs e, try_any_eq_ok_false p xs,
    try_any_run_fst_of_all_false p xs, rfl⟩

/-- Witness for C2: on `[1, 2, 3]` with the always-`Ok(false)` predicate, the
exhaustion clause applies and the predicate is invoked on every element. -/
theorem try_any_claim_witness :
    (try_any_run (fun _ : Nat => (.ok false : Except Nat Bool)) [1, 2, 3]).1 = [1, 2, 3] :=
  (try_any_claim (fun _ : Nat => (.ok false : Except Nat Bool)) [1, 2, 3]).2.2.2.1
    (fun _ _ => rfl)

/-- C3: `try_position` scans forward with a zero-based index counting examined
elements; it succeeds with `some i` exactly when the element at forward index
`i` is the first on which the predicate succeeds with `true` (all earlier
calls succeeding with `false`), fails with exactly the predicate's error when
the predicate first fails (no index alongside), and succeeds with `none` when
every element is examined and none matches. -/
theorem try_position_claim {α : Type u} {ε : Type v} (p : α → Except ε Bool) (xs : List α) :
    (∀ i : Nat, try_position p xs = .ok (some i) ↔
      ∃ ys z zs, xs = ys ++ z :: zs ∧ ys.length = i ∧
        (∀ y ∈ ys, p y = .ok false) ∧ p z = .ok true) ∧
    (∀ e : ε, try_position p xs = .error e ↔
      ∃ ys z zs, xs = ys ++ z :: zs ∧ (∀ y ∈ ys, p y = .ok false) ∧ p z = .error e) ∧
    (try_position p xs = .ok none ↔ ∀ x ∈ xs, p x = .ok false) :=
  ⟨fun i => try_position_eq_some p xs i, fun e => try_position_eq_error p xs e,
    try_position_eq_none p xs⟩

/-- C4: `try_rposition` scans the index/element pairs from the highest forward
index to the lowest; it succeeds with `some i` exactly when the element at
forward index `i` (counted from the start) matches and every element after it
fails the predicate with `false`, returns the predicate's failure at the first
failure of the reverse scan (every element after the failing one succeeding
with `false`), and succeeds with `none` when no element matches. -/
theorem try_rposition_claim {α : Type u} {ε : Type v} (p : α → Except ε Bool) (xs : List α) :
    (∀ i : Nat, try_rposition p xs = .ok (some i) ↔
      ∃ ys z zs, xs = ys ++ z :: zs ∧ ys.length = i ∧ p z = .ok true ∧
        ∀ w ∈ zs, p w = .ok false) ∧
    (∀ e : ε, try_rposition p xs = .error e ↔
      ∃ ys z zs, xs = ys ++ z :: zs ∧ p z = .error e ∧ ∀ w ∈ zs, p w = .ok false) ∧
    (try_rposition p xs = .ok none ↔ ∀ x ∈ xs, p x = .ok false) :=
  ⟨fun i => try_rposition_eq_some p xs i, fun e => try_rposition_eq_error p xs e,
    try_rposition_eq_none p xs⟩

/-- C5: short-circuit law. For each of the four operations, the list of
elements the predicate is invoked on is exactly the maximal non-decisive
(scan-order) segment of elements followed by the first decisive element if one
exists: a prefix of the scan order, so no element after the decisive one is
examined and each consumed element is examined at most once. -/
theorem short_circuit_claim {α : Type u} {ε : Type v} (p : α → Except ε Bool) (xs : List α) :
    ((try_all_run p xs).1 =
      xs.takeWhile (fun x => isOkTrue (p x)) ++
        (xs.dropWhile (fun x => isOkTrue (p x))).take 1) ∧
    ((try_any_run p xs).1 =
      xs.takeWhile (fun x => isOkFalse (p x)) ++
        (xs.dropWhile (fun x => isOkFalse (p x))).take 1) ∧
    ((try_position_run p xs).1 =
      ((enumerate xs).takeWhile (fun q => isOkFalse (p q.2))).map Prod.snd ++
        (((enumerate xs).dropWhile (fun q => isOkFalse (p q.2))).take 1).map Prod.snd) ∧
    ((try_rposition_run p xs).1 =
      (((enumerate xs).reverse).takeWhile (fun q => isOkFalse (p q.2))).map Prod.snd ++
        ((((enumerate xs).reverse).dropWhile (fun q => isOkFalse (p q.2))).take 1).map
          Prod.snd) :=
  ⟨try_all_run_fst p xs, try_any_run_fst p xs, position_run_fst p (enumerate xs),
    position_run_fst p (enumerate xs).reverse⟩

/-- C7: empty-sequence law. On the empty sequence `try_all` succeeds with
`true`, `try_any` with `false`, `try_position` and `try_rposition` with `none`,
and in all four cases the predicate is never invoked. -/
theorem empty_sequence_claim {α : Type u} {ε : Type v} (p : α → Except ε Bool) :
    try_all p ([] : List α) = .ok true ∧
    try_any p ([] : List α) = .ok false ∧
    try_position p ([] : List α) = .ok none ∧
    try_rposition p ([] : List α) = .ok none ∧
    (try_all_run p ([] : List α)).1 = [] ∧
    (try_any_run p ([] : List α)).1 = [] ∧
    (try_position_run p ([] : List α)).1 = [] ∧
    (try_rposition_run p ([] : List α)).1 = [] :=
  ⟨rfl, rfl, rfl, rfl, rfl, rfl, rfl, rfl⟩

/-- C9: duality of `try_all` and `try_any`. Running `try_any` with the
pointwise-negated predicate yields the boolean negation of `try_all`'s
successful result (and the identical error on failure), and both runs invoke
the predicate on exactly the same elements. -/
theorem duality_claim {α : Type u} {ε : Type v} (p : α → Except ε Bool) (xs : List α) :
    (try_any (fun x => Except.map (fun b => !b) (p x)) xs =
      Except.map (fun b => !b) (try_all p xs)) ∧
    ((try_any_run (fun x => Except.map (fun b => !b) (p x)) xs).1 =
      (try_all_run p xs).1) :=
  ⟨try_any_map_not p xs, try_any_run_map_not_fst p xs⟩

/-- C10: refinement of the infallible operations. With a never-failing
predicate `x ↦ Ok(q x)`, `try_all` returns `Ok` of the standard all-match,
`try_any` of the standard any-match, `try_position` of the standard first-match
index, and `try_rposition` of the standard last-match index. -/
theorem refinement_claim {α : Type u} {ε : Type v} (q : α → Bool) (xs : List α) :
    try_all (fun x => (.ok (q x) : Except ε Bool)) xs = .ok (xs.all q) ∧
    try_any (fun x => (.ok (q x) : Except ε Bool)) xs = .ok (xs.any q) ∧
    try_position (fun x => (.ok (q x) : Except ε Bool)) xs = .ok (firstMatchIdx q xs) ∧
    try_rposition (fun x => (.ok (q x) : Except ε Bool)) xs = .ok (lastMatchIdx q xs) :=
  ⟨try_all_pure q xs, try_any_pure q xs, try_position_pure q xs, try_rposition_pure q xs⟩

/-- C6: error propagation. If the predicate fails with error `e` at the first
decisive element of the operation's scan order (all elements scanned before it
being non-decisive), each operation returns exactly `.error e` — the
caller's error value untransformed and with no partial result — and the
predicate is invoked on no element past the failing one. -/
theorem error_propagation_claim {α : Type u} {ε : Type v} (p : α → Except ε Bool)
    (e : ε) (ys : List α) (z : α) (zs : List α) (hz : p z = .error e) :
    ((∀ y ∈ ys, p y = .ok true) →
      try_all p (ys ++ z :: zs) = .error e ∧
        (try_all_run p (ys ++ z :: zs)).1 = ys ++ [z]) ∧
    ((∀ y ∈ ys, p y = .ok false) →
      try_any p (ys ++ z :: zs) = .error e ∧
        (try_any_run p (ys ++ z :: zs)).1 = ys ++ [z] ∧
        try_position p (ys ++ z :: zs) = .error e ∧
        (try_position_run p (ys ++ z :: zs)).1 = ys ++ [z]) ∧
    ((∀ w ∈ zs, p w = .ok false) →
      try_rposition p (ys ++ z :: zs) = .error e ∧
        (try_rposition_run p (ys ++ z :: zs)).1 = zs.reverse ++ [z]) := by
  refine ⟨fun hys => ⟨?_, ?_⟩, fun hys => ⟨?_, ?_, ?_, ?_⟩, fun hzs => ⟨?_, ?_⟩⟩
  · exact (try_all_eq_error p _ e).mpr ⟨ys, z, zs, rfl, hys, hz⟩
  · exact try_all_run_fst_split p ys z zs hys (by rw [hz]; rfl)
  · exact (try_any_eq_error p _ e).mpr ⟨ys, z, zs, rfl, hys, hz⟩
  · exact try_any_run_fst_split p ys z zs hys (by rw [hz]; rfl)
  · exact (try_position_eq_error p _ e).mpr ⟨ys, z, zs, rfl, hys, hz⟩
  · rw [show try_position_run p (ys ++ z :: zs) =
        position_run p (enumerate (ys ++ z :: zs)) from rfl, enumerate_split]
    rw [position_run_fst_split p (enumerateFrom 0 ys) (ys.length, z)
      (enumerateFrom (ys.length + 1) zs)
      ((forall_enumerateFrom_iff (fun a => p a = .ok false) 0 ys).mpr hys)
      (by show isOkFalse (p z) = false; rw [hz]; rfl)]
    rw [map_snd_enumerateFrom]
  · exact (try_rposition_eq_error p _ e).mpr ⟨ys, z, zs, rfl, hz, hzs⟩
  · rw [show try_rposition_run p (ys ++ z :: zs) =
        position_run p (enumerate (ys ++ z :: zs)).reverse from rfl, enumerate_split]
    rw [show (enumerateFrom 0 ys ++
          (ys.length, z) :: enumerateFrom (ys.length + 1) zs).reverse =
        (enumerateFrom (ys.length + 1) zs).reverse ++
          (ys.length, z) :: (enumerateFrom 0 ys).reverse from by simp]
    rw [position_run_fst_split p ((enumerateFrom (ys.length + 1) zs).reverse)
      (ys.length, z) ((enumerateFrom 0 ys).reverse)
      (fun r hr => (forall_enumerateFrom_iff (fun a => p a = .ok false)
        (ys.length + 1) zs).mpr hzs r (List.mem_reverse.mp hr))
      (by show isOkFalse (p z) = false; rw [hz]; rfl)]
    rw [List.map_reverse, map_snd_enumerateFrom]

/-- Witness for C6: the documentation example `[Ok("foo"), Err(4444), Ok("foo")]`
for `try_all` — the failure `4444` is returned and the element after the error
is never examined. -/
theorem error_propagation_claim_witness :
    try_all eqFoo [.ok "foo", .error 4444, .ok "foo"] = .error 4444 ∧
    (try_all_run eqFoo [.ok "foo", .error 4444, .ok "foo"]).1 =
      [.ok "foo", .error 4444] := by
  have h := (error_propagation_claim eqFoo 4444 [.ok "foo"] (.error 4444) [.ok "foo"]
    rfl).1 (by intro y hy; simp only [List.mem_singleton] at hy; subst hy; rfl)
  exact h

/-- C8: the concrete reverse-error scenario of the source documentation. On
`[Ok("foo"), Err(9999), Ok("bar")]` with the propagate-then-compare-to-"foo"
predicate, `try_rposition` returns the failure `9999`; the reverse scan
examines `Ok("bar")` (index 2) and then the error element (index 1), and the
matching element `Ok("foo")` at index 0 is never examined. -/
theorem rposition_reverse_error_claim :
    try_rposition eqFoo fooErrBar = .error 9999 ∧
    (try_rposition_run eqFoo fooErrBar).1 = [.ok "bar", .error 9999] ∧
    (.ok "foo" : Except Nat String) ∉ (try_rposition_run eqFoo fooErrBar).1 := by
  refine ⟨rfl, rfl, ?_⟩
  intro hmem
  rw [show (try_rposition_run eqFoo fooErrBar).1 = [.ok "bar", .error 9999] from rfl]
    at hmem
  simp at hmem
